import Mathlib

/-!
# Lock-free bounded queues and adaptive backoff of `benchmark_five_principles.cpp`

A shallow embedding of `SpscQueue<Capacity>`, `MpscDropQueue<Capacity>` and
`AdaptiveBackoff` (src/examples/benchmark_five_principles.cpp), executed on a single thread.

* `uint64_t` counters (`head`, `tail`, `drop_count`) are natural numbers below `2^64`;
  every `+ 1` and every subtraction is taken modulo `2^64`, as the C++ unsigned arithmetic does.
* `uint32_t` quantities (`Capacity`, `idle_count_`) are natural numbers below `2^32`, with
  arithmetic modulo `2^32`.
* `buf[Capacity]` is a list of length `Capacity`; stored values are `uint64_t` payloads that the
  queue only copies, never computes with.
* An atomic load / store / fetch_add on one thread is a read / write / increment of the field.
* Two producer threads are modelled by interleaving the atomic operations of their calls on the
  shared state (`TwoProducers`).
-/

namespace Bench

/-- The modulus of `uint64_t` arithmetic. -/
def U64 : Nat := 2 ^ 64

/-- The modulus of `uint32_t` arithmetic. -/
def U32 : Nat := 2 ^ 32

/-- The expression `Capacity - 1`, evaluated in `uint32_t` arithmetic. -/
def mask (Capacity : Nat) : Nat := (Capacity + U32 - 1) % U32

/-- The condition of `static_assert((Capacity & (Capacity - 1)) == 0, "must be power of 2")`. -/
def capacityCheck (Capacity : Nat) : Bool := (Capacity &&& mask Capacity) == 0

/-- A `uint32_t` value that is a power of two: one of `2^0, ..., 2^31`. -/
def IsPowerOfTwo (n : Nat) : Prop := ∃ k, k < 32 ∧ n = 2 ^ k

instance (n : Nat) : Decidable (IsPowerOfTwo n) := by
  unfold IsPowerOfTwo; infer_instance

/-- The unsigned 64-bit difference `a - b`. -/
def sub64 (a b : Nat) : Nat := (a + U64 - b) % U64

/-! ## SpscQueue -/

/-- The fields of `template <uint32_t Capacity> struct SpscQueue`. -/
structure SpscQueue (Capacity : Nat) where
  head : Nat
  tail : Nat
  buf : List Nat
deriving DecidableEq, Repr

namespace SpscQueue

variable {Capacity : Nat}

/-- The default member initialisers: `head{0}`, `tail{0}`, `buf[Capacity]{}`. -/
def init (Capacity : Nat) : SpscQueue Capacity :=
  { head := 0, tail := 0, buf := List.replicate Capacity 0 }

/-- The representation invariant of the C++ object: both counters are `uint64_t` values and the
array has `Capacity` slots. -/
def WF (q : SpscQueue Capacity) : Prop :=
  q.head < U64 ∧ q.tail < U64 ∧ q.buf.length = Capacity

instance (q : SpscQueue Capacity) : Decidable q.WF := by
  unfold WF; infer_instance

/-- The method `bool try_push(uint64_t val)`: the returned flag and the state afterwards.
For `Capacity > 0` the slot index `t & (Capacity - 1)` is below `Capacity` (`index_lt`), so the
write is inside the array. -/
def try_push (q : SpscQueue Capacity) (val : Nat) : Bool × SpscQueue Capacity :=
  let t := q.tail
  let h := q.head
  if sub64 t h ≥ Capacity then (false, q)
  else (true, { q with buf := q.buf.set (t &&& mask Capacity) val, tail := (t + 1) % U64 })

/-- The method `bool try_pop(uint64_t& val)`: `some v` stands for `true` with `v` written to
`val`, `none` for `false` with `val` untouched. For `Capacity > 0` the slot index is below
`Capacity`, so the read is inside the array and the default of `getD` is never used. -/
def try_pop (q : SpscQueue Capacity) : Option Nat × SpscQueue Capacity :=
  let h := q.head
  let t := q.tail
  if h ≥ t then (none, q)
  else (some (q.buf.getD (h &&& mask Capacity) 0), { q with head := (h + 1) % U64 })

/-- The method `uint64_t size() const`. -/
def size (q : SpscQueue Capacity) : Nat := sub64 q.tail q.head

end SpscQueue

/-! ## Single-threaded call sequences -/

/-- One call made on a queue. -/
inductive Op where
  | push (val : Nat)
  | pop
deriving DecidableEq, Repr

/-- What a call returned. -/
inductive Res where
  | pushed (ok : Bool)
  | popped (r : Option Nat)
deriving DecidableEq, Repr

namespace SpscQueue

variable {Capacity : Nat}

/-- Perform one call. -/
def step (q : SpscQueue Capacity) : Op → Res × SpscQueue Capacity
  | Op.push v => ((Res.pushed (q.try_push v).1), (q.try_push v).2)
  | Op.pop => ((Res.popped q.try_pop.1), q.try_pop.2)

/-- Perform a sequence of calls, left to right, collecting what each returned. -/
def run (q : SpscQueue Capacity) : List Op → List Res × SpscQueue Capacity
  | [] => ([], q)
  | op :: ops => ((q.step op).1 :: ((q.step op).2.run ops).1, ((q.step op).2.run ops).2)

end SpscQueue

/-! ## The bounded FIFO list the queue is compared with -/

namespace BoundedFifo

/-- Specification model of one call on a bounded FIFO list of capacity `Capacity`: a push is
accepted iff the list has fewer than `Capacity` elements and appends; a pop succeeds iff the list
is non-empty and returns its front. -/
def step (Capacity : Nat) (l : List Nat) : Op → Res × List Nat
  | Op.push v => if l.length < Capacity then (Res.pushed true, l ++ [v]) else (Res.pushed false, l)
  | Op.pop =>
    match l with
    | [] => (Res.popped none, [])
    | x :: xs => (Res.popped (some x), xs)

/-- Specification model of a sequence of calls. -/
def run (Capacity : Nat) (l : List Nat) : List Op → List Res × List Nat
  | [] => ([], l)
  | op :: ops =>
    ((step Capacity l op).1 :: (run Capacity (step Capacity l op).2 ops).1,
      (run Capacity (step Capacity l op).2 ops).2)

end BoundedFifo

/-- The abstraction relation: the queue `q` holds exactly the list `l`, oldest value first, in
the slots `head, head + 1, ..., tail - 1` (taken modulo `Capacity`), and `tail` has not wrapped
around `2^64`. -/
def SpscQueue.Holds {Capacity : Nat} (q : SpscQueue Capacity) (l : List Nat) : Prop :=
  q.buf.length = Capacity ∧ q.tail = q.head + l.length ∧ l.length ≤ Capacity ∧ q.tail < U64 ∧
    ∀ i, i < l.length → q.buf[(q.head + i) % Capacity]? = l[i]?

/-- The number of accepted pushes among the results of a call sequence. -/
def acceptedCount : List Res → Nat
  | [] => 0
  | Res.pushed true :: rs => acceptedCount rs + 1
  | _ :: rs => acceptedCount rs

/-- The call sequence `pop, push 7` repeated `n` times. -/
def popPushCycles : Nat → List Op
  | 0 => []
  | n + 1 => Op.pop :: Op.push 7 :: popPushCycles n

/-- A call sequence with `2^64` accepted pushes on a queue of capacity 1: one push, then
`2^64 - 1` rounds of pop and push. -/
def wrapOps : List Op :=
  Op.push 7 :: (popPushCycles (2 ^ 64 - 2) ++ [Op.pop, Op.push 7])

/-- A call sequence that leaves a queue of capacity 1 empty with `head = tail = 2^64 - 1`: one
push, `2^64 - 2` rounds of pop and push, and a final pop. -/
def drainOps : List Op :=
  Op.push 7 :: (popPushCycles (2 ^ 64 - 2) ++ [Op.pop])

/-- The call sequence of `n` pushes of the value 7. -/
def pushes (n : Nat) : List Op := List.replicate n (Op.push 7)

/-- The scenario of the specification on a queue of capacity 4. -/
def scenarioOps : List Op :=
  [Op.push 1, Op.push 2, Op.push 3, Op.push 4, Op.push 5, Op.pop, Op.push 5,
    Op.pop, Op.pop, Op.pop, Op.pop, Op.pop]

/-! ## MpscDropQueue -/

/-- The fields of `template <uint32_t Capacity> struct MpscDropQueue`. -/
structure MpscDropQueue (Capacity : Nat) where
  head : Nat
  tail : Nat
  buf : List Nat
  drop_count : Nat
deriving DecidableEq, Repr

namespace MpscDropQueue

variable {Capacity : Nat}

/-- The default member initialisers: `head{0}`, `tail{0}`, `buf[Capacity]{}`, `drop_count{0}`. -/
def init (Capacity : Nat) : MpscDropQueue Capacity :=
  { head := 0, tail := 0, buf := List.replicate Capacity 0, drop_count := 0 }

/-- The representation invariant of the C++ object: the three counters are `uint64_t` values and
the array has `Capacity` slots. -/
def WF (q : MpscDropQueue Capacity) : Prop :=
  q.head < U64 ∧ q.tail < U64 ∧ q.drop_count < U64 ∧ q.buf.length = Capacity

instance (q : MpscDropQueue Capacity) : Decidable q.WF := by
  unfold WF; infer_instance

/-- The method `void push_or_drop(uint64_t val)`, called by one thread. -/
def push_or_drop (q : MpscDropQueue Capacity) (val : Nat) : MpscDropQueue Capacity :=
  let t := q.tail
  let h := q.head
  if sub64 t h ≥ Capacity then { q with drop_count := (q.drop_count + 1) % U64 }
  else { q with buf := q.buf.set (t &&& mask Capacity) val, tail := (t + 1) % U64 }

/-- The method `bool try_pop(uint64_t& val)`: `some v` stands for `true` with `v` written to
`val`, `none` for `false` with `val` untouched. -/
def try_pop (q : MpscDropQueue Capacity) : Option Nat × MpscDropQueue Capacity :=
  let h := q.head
  let t := q.tail
  if h ≥ t then (none, q)
  else (some (q.buf.getD (h &&& mask Capacity) 0), { q with head := (h + 1) % U64 })

/-- The unsigned 64-bit difference `tail - head`, the occupancy that `push_or_drop` tests. -/
def size (q : MpscDropQueue Capacity) : Nat := sub64 q.tail q.head

/-- Perform one call and return the state afterwards. -/
def step (q : MpscDropQueue Capacity) : Op → MpscDropQueue Capacity
  | Op.push v => q.push_or_drop v
  | Op.pop => q.try_pop.2

/-- Perform a sequence of calls, left to right, and return the final state. -/
def exec (q : MpscDropQueue Capacity) : List Op → MpscDropQueue Capacity
  | [] => q
  | op :: ops => (q.step op).exec ops

/-- The number of `push_or_drop` calls of the sequence that advanced `tail`. -/
def successful_pushes (q : MpscDropQueue Capacity) : List Op → Nat
  | [] => 0
  | Op.push v :: ops =>
    (if (q.push_or_drop v).tail = q.tail then 0 else 1) + (q.push_or_drop v).successful_pushes ops
  | Op.pop :: ops => q.try_pop.2.successful_pushes ops

end MpscDropQueue

/-- The number of `push_or_drop` calls made in a call sequence. -/
def total_push_attempts : List Op → Nat
  | [] => 0
  | Op.push _ :: ops => total_push_attempts ops + 1
  | Op.pop :: ops => total_push_attempts ops

/-! ## AdaptiveBackoff -/

/-- The branch of `AdaptiveBackoff::wait()` that is executed: the pause loop, `yield()`, or
`sleep_for(1ms)`. -/
inductive Phase where
  | spin
  | yield
  | sleep
deriving DecidableEq, Repr

/-- The position of a phase in the order spin < yield < sleep. -/
def Phase.rank : Phase → Nat
  | Phase.spin => 0
  | Phase.yield => 1
  | Phase.sleep => 2

/-- The state of `class AdaptiveBackoff`. -/
structure AdaptiveBackoff where
  idle_count_ : Nat
deriving DecidableEq, Repr

namespace AdaptiveBackoff

/-- The constant `kSpinThreshold`. -/
def kSpinThreshold : Nat := 64

/-- The constant `kYieldThreshold`. -/
def kYieldThreshold : Nat := 256

/-- The default member initialiser `idle_count_ = 0`. -/
def init : AdaptiveBackoff := { idle_count_ := 0 }

/-- The method `void wait()`: the phase it executes and the state afterwards. -/
def wait (b : AdaptiveBackoff) : Phase × AdaptiveBackoff :=
  let c := (b.idle_count_ + 1) % U32
  if c < kSpinThreshold then (Phase.spin, { idle_count_ := c })
  else if c < kYieldThreshold then (Phase.yield, { idle_count_ := c })
  else (Phase.sleep, { idle_count_ := c })

/-- The method `void reset()`. -/
def reset (_b : AdaptiveBackoff) : AdaptiveBackoff := { idle_count_ := 0 }

/-- The phases executed by `n` consecutive `wait()` calls, in call order. -/
def waits (b : AdaptiveBackoff) : Nat → List Phase
  | 0 => []
  | n + 1 => b.wait.1 :: b.wait.2.waits n

end AdaptiveBackoff

/-- A sequence of phases that never steps back in the order spin < yield < sleep. -/
def NonDecreasing (l : List Phase) : Prop := l.Pairwise (fun a b => a.rank ≤ b.rank)

instance (l : List Phase) : Decidable (NonDecreasing l) := by
  unfold NonDecreasing; infer_instance

/-! ## push_or_drop as a sequence of memory accesses, run by two producer threads

Each atomic operation of `push_or_drop` (`tail.load`, `head.load`, the write of the slot or the
`drop_count.fetch_add`, `tail.store`) is one step; two producers interleave their steps on the
shared queue. Every access takes effect at once on the shared state (a sequentially consistent
execution, which the C++ memory model allows for these operations). -/

/-- A producer thread inside one call `push_or_drop(val)`. `pc` counts the memory accesses made
so far (0: none, 1: after `tail.load`, 2: after `head.load`, 3: after the fullness test and the
write of the slot, 4: returned); `t` and `h` are the two local variables; `slot` records the
slot the call has written, if any. -/
structure Producer where
  val : Nat
  pc : Nat
  t : Nat
  h : Nat
  slot : Option Nat
deriving DecidableEq, Repr

/-- A producer that is about to call `push_or_drop(val)`. -/
def Producer.start (val : Nat) : Producer :=
  { val := val, pc := 0, t := 0, h := 0, slot := none }

/-- The next memory access of a producer inside `push_or_drop`, in program order:
`t = tail.load()`, `h = head.load()`, then either `drop_count.fetch_add(1); return` or
`buf[t & (Capacity - 1)] = val`, then `tail.store(t + 1)`. A producer that has returned does
nothing. -/
def MpscDropQueue.producerStep {Capacity : Nat} (q : MpscDropQueue Capacity) (p : Producer) :
    MpscDropQueue Capacity × Producer :=
  match p.pc with
  | 0 => (q, { p with pc := 1, t := q.tail })
  | 1 => (q, { p with pc := 2, h := q.head })
  | 2 =>
    if sub64 p.t p.h ≥ Capacity then
      ({ q with drop_count := (q.drop_count + 1) % U64 }, { p with pc := 4 })
    else
      ({ q with buf := q.buf.set (p.t &&& mask Capacity) p.val },
        { p with pc := 3, slot := some (p.t &&& mask Capacity) })
  | 3 => ({ q with tail := (p.t + 1) % U64 }, { p with pc := 4 })
  | _ => (q, p)

/-- The two producer threads. -/
inductive Tid where
  | A
  | B
deriving DecidableEq, Repr

/-- A shared queue and two producers, each inside one `push_or_drop` call. -/
structure TwoProducers (Capacity : Nat) where
  q : MpscDropQueue Capacity
  a : Producer
  b : Producer
deriving DecidableEq, Repr

namespace TwoProducers

variable {Capacity : Nat}

/-- The named thread makes its next memory access. -/
def step (s : TwoProducers Capacity) : Tid → TwoProducers Capacity
  | Tid.A => { s with q := (s.q.producerStep s.a).1, a := (s.q.producerStep s.a).2 }
  | Tid.B => { s with q := (s.q.producerStep s.b).1, b := (s.q.producerStep s.b).2 }

/-- Run an interleaving: the threads make their accesses in the order the schedule names. -/
def run (s : TwoProducers Capacity) : List Tid → TwoProducers Capacity
  | [] => s
  | i :: is => (s.step i).run is

/-- Two producers about to push the values 1 and 2 into the freshly constructed queue. -/
def start (Capacity : Nat) : TwoProducers Capacity :=
  { q := MpscDropQueue.init Capacity, a := Producer.start 1, b := Producer.start 2 }

/-- What C11 asks of a finished execution that started with `tail = 0`: both calls have
returned, they wrote distinct slots, and `tail` has advanced by two. -/
def Reserved (s : TwoProducers Capacity) : Prop :=
  s.a.pc = 4 ∧ s.b.pc = 4 ∧ s.a.slot ≠ s.b.slot ∧ s.q.tail = 2

instance (s : TwoProducers Capacity) : Decidable s.Reserved := by
  unfold Reserved; infer_instance

end TwoProducers

/-- All schedules of the given length. -/
def allSchedules : Nat → List (List Tid)
  | 0 => [[]]
  | n + 1 =>
    (allSchedules n).map (fun s => Tid.A :: s) ++ (allSchedules n).map (fun s => Tid.B :: s)

/-- All interleavings of two calls that make four memory accesses each: the schedules of length
eight that name each thread four times. -/
def interleavings : List (List Tid) :=
  (allSchedules 8).filter (fun s => s.count Tid.A = 4)

/-! ## Arithmetic of the slot index -/

theorem mask_of_pos {C : Nat} (hC : 0 < C) : mask C = (C - 1) % U32 := by
  unfold mask
  have h : C + U32 - 1 = (C - 1) + U32 := by omega
  rw [h, Nat.add_mod_right]

theorem mask_lt {C : Nat} (hC : 0 < C) : mask C < C := by
  rw [mask_of_pos hC]
  exact Nat.lt_of_le_of_lt (Nat.mod_le _ _) (by omega)

theorem index_lt {C : Nat} (hC : 0 < C) (t : Nat) : t &&& mask C < C :=
  Nat.lt_of_le_of_lt Nat.and_le_right (mask_lt hC)

theorem mask_two_pow {k : Nat} (hk : k < 32) : mask (2 ^ k) = 2 ^ k - 1 := by
  have hpos : 0 < 2 ^ k := Nat.two_pow_pos k
  rw [mask_of_pos hpos]
  apply Nat.mod_eq_of_lt
  have : 2 ^ k < 2 ^ 32 := Nat.pow_lt_pow_right (by decide) hk
  unfold U32
  omega

theorem index_two_pow {k : Nat} (hk : k < 32) (t : Nat) : t &&& mask (2 ^ k) = t % 2 ^ k := by
  rw [mask_two_pow hk, Nat.and_pow_two_sub_one_eq_mod]

theorem sub64_of_le {a b : Nat} (hab : b ≤ a) (ha : a < U64) : sub64 a b = a - b := by
  unfold sub64 U64 at *
  omega

/-! ## try_push and try_pop, one call at a time -/

namespace SpscQueue

variable {Capacity : Nat}

theorem init_WF (Capacity : Nat) : (init Capacity).WF := by
  simp [WF, init, U64]

theorem init_size (Capacity : Nat) : (init Capacity).size = 0 := by
  simp [size, init, sub64, U64]

theorem try_push_full (q : SpscQueue Capacity) (val : Nat) (h : q.size ≥ Capacity) :
    q.try_push val = (false, q) := by
  unfold size at h
  simp [try_push, h]

theorem try_push_ok (q : SpscQueue Capacity) (val : Nat) (h : q.size < Capacity) :
    q.try_push val =
      (true, { q with buf := q.buf.set (q.tail &&& mask Capacity) val,
                      tail := (q.tail + 1) % U64 }) := by
  unfold size at h
  simp [try_push, Nat.not_le.mpr h]

theorem size_lt_U64 (q : SpscQueue Capacity) : q.size < U64 :=
  Nat.mod_lt _ (by decide)

theorem try_push_size (q : SpscQueue Capacity) (val : Nat) (hq : q.WF) (h : q.size < Capacity) :
    (q.try_push val).2.size = (q.size + 1) % U64 := by
  rw [try_push_ok q val h]
  obtain ⟨hh, ht, -⟩ := hq
  simp only [size, sub64, U64] at *
  omega

theorem try_push_WF (q : SpscQueue Capacity) (val : Nat) (hq : q.WF) : (q.try_push val).2.WF := by
  by_cases h : q.size < Capacity
  · rw [try_push_ok q val h]
    obtain ⟨hh, ht, hb⟩ := hq
    refine ⟨hh, Nat.mod_lt _ (by decide), ?_⟩
    simpa using hb
  · rw [try_push_full q val (Nat.not_lt.mp h)]
    exact hq

theorem try_pop_empty (q : SpscQueue Capacity) (h : q.head ≥ q.tail) : q.try_pop = (none, q) := by
  simp [try_pop, h]

theorem try_pop_ok (q : SpscQueue Capacity) (h : q.head < q.tail) :
    q.try_pop =
      (some (q.buf.getD (q.head &&& mask Capacity) 0), { q with head := (q.head + 1) % U64 }) := by
  simp [try_pop, Nat.not_le.mpr h]

theorem try_pop_WF (q : SpscQueue Capacity) (hq : q.WF) : q.try_pop.2.WF := by
  by_cases h : q.head < q.tail
  · rw [try_pop_ok q h]
    exact ⟨Nat.mod_lt _ (by decide), hq.2.1, hq.2.2⟩
  · rw [try_pop_empty q (Nat.not_lt.mp h)]
    exact hq

theorem try_pop_size_le (q : SpscQueue Capacity) (hq : q.WF) : q.try_pop.2.size ≤ q.size := by
  by_cases h : q.head < q.tail
  · rw [try_pop_ok q h]
    obtain ⟨hh, ht, -⟩ := hq
    simp only [size, sub64, U64] at *
    omega
  · rw [try_pop_empty q (Nat.not_lt.mp h)]

end SpscQueue

/-! ## Simulation of the bounded FIFO list by SpscQueue -/

theorem mod_ne_of_lt_of_lt {C a b : Nat} (h1 : a < b) (h2 : b < a + C) : a % C ≠ b % C := by
  intro h
  have h0 : (b - a) % C = 0 := Nat.sub_mod_eq_zero_of_mod_eq h.symm
  have hd : C ∣ b - a := Nat.dvd_of_mod_eq_zero h0
  have := Nat.le_of_dvd (by omega) hd
  omega

namespace SpscQueue

variable {Capacity : Nat}

theorem Holds.size_eq {q : SpscQueue Capacity} {l : List Nat} (h : q.Holds l) :
    q.size = l.length := by
  obtain ⟨-, ht, -, hlt, -⟩ := h
  unfold size
  rw [sub64_of_le (by omega) hlt]
  omega

theorem Holds.wf {q : SpscQueue Capacity} {l : List Nat} (h : q.Holds l) : q.WF := by
  obtain ⟨hb, ht, -, hlt, -⟩ := h
  exact ⟨by omega, hlt, hb⟩

theorem init_Holds (Capacity : Nat) : (init Capacity).Holds [] := by
  refine ⟨by simp [init], by simp [init], by simp, by simp [init, U64], ?_⟩
  intro i hi
  simp at hi

theorem Holds.push_accept {q : SpscQueue Capacity} {l : List Nat} (hC : IsPowerOfTwo Capacity)
    (h : q.Holds l) (v : Nat) (hl : l.length < Capacity) (hw : q.tail + 1 < U64) :
    (q.try_push v).1 = true ∧ (q.try_push v).2.Holds (l ++ [v]) := by
  have hs := h.size_eq
  obtain ⟨hb, ht, hle, hlt, hsl⟩ := h
  obtain ⟨k, hk, rfl⟩ := hC
  rw [try_push_ok q v (by omega)]
  refine ⟨rfl, ?_, ?_, ?_, ?_, ?_⟩
  · simpa using hb
  · show (q.tail + 1) % U64 = q.head + (l ++ [v]).length
    rw [Nat.mod_eq_of_lt hw, List.length_append]
    simp
    omega
  · simp
    omega
  · show (q.tail + 1) % U64 < U64
    exact Nat.mod_lt _ (by decide)
  · intro i hi
    show (q.buf.set (q.tail &&& mask (2 ^ k)) v)[(q.head + i) % 2 ^ k]? = (l ++ [v])[i]?
    rw [index_two_pow hk]
    simp only [List.length_append, List.length_singleton] at hi
    by_cases hil : i < l.length
    · have hne : q.tail % 2 ^ k ≠ (q.head + i) % 2 ^ k := by
        intro he
        exact @mod_ne_of_lt_of_lt (2 ^ k) (q.head + i) q.tail (by omega) (by omega) he.symm
      rw [List.getElem?_set_ne hne, hsl i hil, List.getElem?_append_left hil]
    · have hi' : i = l.length := by omega
      subst hi'
      rw [← ht, List.getElem?_set_self (by rw [hb]; exact Nat.mod_lt _ (Nat.two_pow_pos k))]
      simp

theorem Holds.push_reject {q : SpscQueue Capacity} {l : List Nat}
    (h : q.Holds l) (v : Nat) (hl : ¬ l.length < Capacity) :
    q.try_push v = (false, q) := by
  apply try_push_full
  rw [h.size_eq]
  omega

theorem Holds.pop_nil {q : SpscQueue Capacity} (h : q.Holds []) : q.try_pop = (none, q) := by
  apply try_pop_empty
  obtain ⟨-, ht, -⟩ := h
  simp at ht
  omega

theorem Holds.pop_cons {q : SpscQueue Capacity} {x : Nat} {xs : List Nat}
    (hC : IsPowerOfTwo Capacity) (h : q.Holds (x :: xs)) :
    q.try_pop.1 = some x ∧ q.try_pop.2.Holds xs := by
  obtain ⟨hb, ht, hle, hlt, hsl⟩ := h
  obtain ⟨k, hk, rfl⟩ := hC
  simp only [List.length_cons] at ht hle
  rw [try_pop_ok q (by omega)]
  have hh : (q.head + 1) % U64 = q.head + 1 := Nat.mod_eq_of_lt (by omega)
  refine ⟨?_, hb, ?_, by omega, hlt, ?_⟩
  · show some (q.buf.getD (q.head &&& mask (2 ^ k)) 0) = some x
    have h0 := hsl 0 (by simp)
    rw [index_two_pow hk]
    simp only [Nat.add_zero, List.getElem?_cons_zero] at h0
    simp [h0]
  · show q.tail = (q.head + 1) % U64 + xs.length
    rw [hh]
    omega
  · intro i hi
    show q.buf[((q.head + 1) % U64 + i) % 2 ^ k]? = xs[i]?
    rw [hh]
    have h1 := hsl (i + 1) (by simp; omega)
    rw [List.getElem?_cons_succ] at h1
    rw [← h1]
    congr 2
    omega

theorem run_sim (hC : IsPowerOfTwo Capacity) :
    ∀ (ops : List Op) (q : SpscQueue Capacity) (l : List Nat), q.Holds l →
      q.tail + acceptedCount (BoundedFifo.run Capacity l ops).1 < U64 →
      (q.run ops).1 = (BoundedFifo.run Capacity l ops).1 ∧
        (q.run ops).2.Holds (BoundedFifo.run Capacity l ops).2 ∧
        (q.run ops).2.tail = q.tail + acceptedCount (BoundedFifo.run Capacity l ops).1 := by
  intro ops
  induction ops with
  | nil => intro q l h _; exact ⟨rfl, h, rfl⟩
  | cons op ops ih =>
    intro q l h hw
    cases op with
    | push v =>
      by_cases hl : l.length < Capacity
      · have hstep : BoundedFifo.step Capacity l (Op.push v) = (Res.pushed true, l ++ [v]) := by
          simp [BoundedFifo.step, hl]
        simp only [BoundedFifo.run, hstep, acceptedCount] at hw ⊢
        obtain ⟨h1, h2⟩ := h.push_accept hC v hl (by omega)
        have ht : (q.try_push v).2.tail = q.tail + 1 := by
          rw [try_push_ok q v (by rw [h.size_eq]; exact hl)]
          exact Nat.mod_eq_of_lt (by omega)
        obtain ⟨r1, r2, r3⟩ := ih (q.try_push v).2 (l ++ [v]) h2 (by rw [ht]; omega)
        simp only [run, step, h1, r1]
        exact ⟨trivial, r2, by rw [r3, ht]; omega⟩
      · have hstep : BoundedFifo.step Capacity l (Op.push v) = (Res.pushed false, l) := by
          simp [BoundedFifo.step, hl]
        simp only [BoundedFifo.run, hstep, acceptedCount] at hw ⊢
        have h1 := h.push_reject v hl
        obtain ⟨r1, r2, r3⟩ := ih q l h hw
        simp only [run, step, h1, r1]
        exact ⟨trivial, r2, r3⟩
    | pop =>
      cases l with
      | nil =>
        simp only [BoundedFifo.run, BoundedFifo.step, acceptedCount] at hw ⊢
        have h1 := h.pop_nil
        obtain ⟨r1, r2, r3⟩ := ih q [] h hw
        simp only [run, step, h1, r1]
        exact ⟨trivial, r2, r3⟩
      | cons x xs =>
        simp only [BoundedFifo.run, BoundedFifo.step, acceptedCount] at hw ⊢
        obtain ⟨h1, h2⟩ := h.pop_cons hC
        have ht : q.try_pop.2.tail = q.tail := by
          obtain ⟨-, ht, -⟩ := h
          simp only [List.length_cons] at ht
          rw [try_pop_ok q (by omega)]
        obtain ⟨r1, r2, r3⟩ := ih q.try_pop.2 xs h2 (by rw [ht]; exact hw)
        simp only [run, step, h1, r1]
        exact ⟨trivial, r2, by rw [r3, ht]⟩

theorem run_append (q : SpscQueue Capacity) (a b : List Op) :
    q.run (a ++ b) = ((q.run a).1 ++ ((q.run a).2.run b).1, ((q.run a).2.run b).2) := by
  induction a generalizing q with
  | nil => rfl
  | cons op a ih => simp [run, ih]

end SpscQueue

namespace BoundedFifo

theorem fifo_run_append (Capacity : Nat) (l : List Nat) (a b : List Op) :
    run Capacity l (a ++ b) =
      ((run Capacity l a).1 ++ (run Capacity (run Capacity l a).2 b).1,
        (run Capacity (run Capacity l a).2 b).2) := by
  induction a generalizing l with
  | nil => rfl
  | cons op a ih => simp [run, ih]

theorem run_pushes (Capacity : Nat) :
    ∀ (vals l : List Nat), l.length + vals.length ≤ Capacity →
      run Capacity l (vals.map Op.push) = (vals.map (fun _ => Res.pushed true), l ++ vals) := by
  intro vals
  induction vals with
  | nil => intro l _; simp [run]
  | cons v vals ih =>
    intro l h
    simp only [List.length_cons] at h
    have hl : l.length < Capacity := by omega
    have := ih (l ++ [v]) (by simp; omega)
    simp [run, step, hl, this]

theorem run_pops (Capacity : Nat) :
    ∀ (l : List Nat),
      run Capacity l (List.replicate l.length Op.pop) =
        (l.map (fun v => Res.popped (some v)), []) := by
  intro l
  induction l with
  | nil => simp [run]
  | cons x xs ih => simp [run, step, List.replicate_succ, ih]

end BoundedFifo

theorem acceptedCount_le_length : ∀ rs : List Res, acceptedCount rs ≤ rs.length
  | [] => Nat.le_refl _
  | Res.pushed true :: rs => by
    have := acceptedCount_le_length rs
    simp [acceptedCount]
    omega
  | Res.pushed false :: rs => by
    have := acceptedCount_le_length rs
    simp [acceptedCount]
    omega
  | Res.popped _ :: rs => by
    have := acceptedCount_le_length rs
    simp [acceptedCount]
    omega

theorem acceptedCount_append (a b : List Res) :
    acceptedCount (a ++ b) = acceptedCount a + acceptedCount b := by
  induction a with
  | nil => simp [acceptedCount]
  | cons r a ih =>
    cases r with
    | pushed ok => cases ok <;> simp [acceptedCount, ih]; omega
    | popped r => simp [acceptedCount, ih]

theorem IsPowerOfTwo.lt_U32 {n : Nat} (h : IsPowerOfTwo n) : n < U32 := by
  obtain ⟨k, hk, rfl⟩ := h
  exact Nat.pow_lt_pow_right (by decide) hk

theorem IsPowerOfTwo.pos {n : Nat} (h : IsPowerOfTwo n) : 0 < n := by
  obtain ⟨k, -, rfl⟩ := h
  exact Nat.two_pow_pos k

theorem acceptedCount_pushed (vals : List Nat) :
    acceptedCount (vals.map (fun _ => Res.pushed true)) = vals.length := by
  induction vals with
  | nil => rfl
  | cons v vals ih => simp only [List.map_cons, acceptedCount, ih, List.length_cons]

theorem acceptedCount_popped (vals : List Nat) :
    acceptedCount (vals.map (fun v => Res.popped (some v))) = 0 := by
  induction vals with
  | nil => rfl
  | cons v vals ih => simp [acceptedCount, ih]

/-! ## FIFO order and filling to capacity -/

/-- SPSC FIFO order away from the wrap of `tail`: for every power-of-two `Capacity`, every
well-formed empty queue (`head = tail`, whatever their value and whatever the buffer holds) and
every list `vals` of at most `Capacity` values with `tail + vals.length < 2^64`, the `try_push`
calls for `vals` all return true and the same number of `try_pop` calls that follow all return
true and yield `vals` in the same order, leaving the queue empty. -/
theorem spsc_fifo_order_of_no_wrap (Capacity : Nat) (q : SpscQueue Capacity) (vals : List Nat)
    (hC : IsPowerOfTwo Capacity) (hq : q.WF) (he : q.head = q.tail)
    (hN : vals.length ≤ Capacity) (hw : q.tail + vals.length < 2 ^ 64) :
    (q.run (vals.map Op.push ++ List.replicate vals.length Op.pop)).1 =
        vals.map (fun _ => Res.pushed true) ++ vals.map (fun v => Res.popped (some v)) ∧
      (q.run (vals.map Op.push ++ List.replicate vals.length Op.pop)).2.size = 0 := by
  have hfifo : BoundedFifo.run Capacity [] (vals.map Op.push ++ List.replicate vals.length Op.pop)
      = (vals.map (fun _ => Res.pushed true) ++ vals.map (fun v => Res.popped (some v)), []) := by
    rw [BoundedFifo.fifo_run_append, BoundedFifo.run_pushes Capacity vals [] (by simpa using hN)]
    simp only [List.nil_append]
    rw [BoundedFifo.run_pops]
  have hholds : q.Holds [] := by
    refine ⟨hq.2.2, by simp [he], Nat.zero_le _, hq.2.1, ?_⟩
    intro i hi
    simp at hi
  have hsim := SpscQueue.run_sim hC (vals.map Op.push ++ List.replicate vals.length Op.pop)
    q [] hholds (by
      rw [hfifo]
      simp only [acceptedCount_append, acceptedCount_pushed, acceptedCount_popped]
      simp only [U64] at *
      omega)
  rw [hfifo] at hsim
  exact ⟨hsim.1, by simpa using hsim.2.1.size_eq⟩

/-- Instance of `spsc_fifo_order_of_no_wrap` at a drained queue of capacity 4 with
`head = tail = 3` and stale buffer contents: the values 10, 20, 30 go to the slots 3, 0, 1 and
come back in order. -/
theorem spsc_fifo_order_of_no_wrap_witness :
    (({ head := 3, tail := 3, buf := [5, 6, 7, 8] } : SpscQueue 4).run
        ([10, 20, 30].map Op.push ++ List.replicate 3 Op.pop)).1 =
        [10, 20, 30].map (fun _ => Res.pushed true) ++
          [10, 20, 30].map (fun v => Res.popped (some v)) ∧
      (({ head := 3, tail := 3, buf := [5, 6, 7, 8] } : SpscQueue 4).run
        ([10, 20, 30].map Op.push ++ List.replicate 3 Op.pop)).2.size = 0 :=
  spsc_fifo_order_of_no_wrap 4 { head := 3, tail := 3, buf := [5, 6, 7, 8] } [10, 20, 30]
    (by decide) (by decide) (by decide) (by decide) (by decide)

/-- SPSC FIFO order from the freshly constructed queue (`head = tail = 0`): for every
power-of-two `Capacity` and every list `vals` of at most `Capacity` values, the pushes all
succeed and the pops that follow yield `vals` in the same order. -/
theorem spsc_fifo_order (Capacity : Nat) (vals : List Nat) (hC : IsPowerOfTwo Capacity)
    (hN : vals.length ≤ Capacity) :
    ((SpscQueue.init Capacity).run (vals.map Op.push ++ List.replicate vals.length Op.pop)).1 =
        vals.map (fun _ => Res.pushed true) ++ vals.map (fun v => Res.popped (some v)) ∧
      ((SpscQueue.init Capacity).run
        (vals.map Op.push ++ List.replicate vals.length Op.pop)).2.size = 0 := by
  have hlt := hC.lt_U32
  exact spsc_fifo_order_of_no_wrap Capacity (SpscQueue.init Capacity) vals hC
    (SpscQueue.init_WF Capacity) rfl hN (by
      simp only [SpscQueue.init, U32] at *
      omega)

/-- Instance of `spsc_fifo_order` at capacity 4 with the values 10, 20, 30. -/
theorem spsc_fifo_order_witness :
    ((SpscQueue.init 4).run ([10, 20, 30].map Op.push ++ List.replicate 3 Op.pop)).1 =
        [10, 20, 30].map (fun _ => Res.pushed true) ++
          [10, 20, 30].map (fun v => Res.popped (some v)) ∧
      ((SpscQueue.init 4).run ([10, 20, 30].map Op.push ++ List.replicate 3 Op.pop)).2.size = 0 :=
  spsc_fifo_order 4 [10, 20, 30] (by decide) (by decide)

/-- C10. Filling to capacity: for every power-of-two `Capacity` and every list `vals` of exactly
`Capacity` values, pushing `vals` into the freshly constructed queue with no pops makes every
`try_push` return true, `size()` then equals `Capacity`, and one more `try_push` (of any value)
returns false. -/
theorem spsc_fill_to_capacity (Capacity : Nat) (vals : List Nat) (v : Nat)
    (hC : IsPowerOfTwo Capacity) (hN : vals.length = Capacity) :
    ((SpscQueue.init Capacity).run (vals.map Op.push)).1 = vals.map (fun _ => Res.pushed true) ∧
      ((SpscQueue.init Capacity).run (vals.map Op.push)).2.size = Capacity ∧
      (((SpscQueue.init Capacity).run (vals.map Op.push)).2.try_push v).1 = false := by
  have hfifo := BoundedFifo.run_pushes Capacity vals [] (by simp; omega)
  have hlt := hC.lt_U32
  have hsim := SpscQueue.run_sim hC (vals.map Op.push) (SpscQueue.init Capacity) []
    (SpscQueue.init_Holds Capacity) (by
      rw [hfifo]
      simp only [acceptedCount_pushed]
      simp only [SpscQueue.init, U64, U32] at *
      omega)
  rw [hfifo] at hsim
  simp only [List.nil_append] at hsim
  refine ⟨hsim.1, by rw [hsim.2.1.size_eq, hN], ?_⟩
  rw [hsim.2.1.push_reject v (by omega)]

/-- Witness for C10 at capacity 4096, pushing 4096 copies of the value 7 and then the value 9. -/
theorem spsc_fill_to_capacity_witness :
    ((SpscQueue.init 4096).run ((List.replicate 4096 7).map Op.push)).1 =
        (List.replicate 4096 7).map (fun _ => Res.pushed true) ∧
      ((SpscQueue.init 4096).run ((List.replicate 4096 7).map Op.push)).2.size = 4096 ∧
      (((SpscQueue.init 4096).run ((List.replicate 4096 7).map Op.push)).2.try_push 9).1 = false :=
  spsc_fill_to_capacity 4096 (List.replicate 4096 7) 9 (by decide) (List.length_replicate 4096 7)

/-! ## Arbitrary call sequences: the bounded FIFO list and the wrap of `tail` -/

theorem fifo_popPushCycles (n : Nat) :
    (BoundedFifo.run 1 [7] (popPushCycles n)).2 = [7] ∧
      acceptedCount (BoundedFifo.run 1 [7] (popPushCycles n)).1 = n := by
  induction n with
  | zero => exact ⟨rfl, rfl⟩
  | succ n ih =>
    simp only [popPushCycles, BoundedFifo.run, BoundedFifo.step, List.length_nil, Nat.lt_add_one,
      if_true, List.nil_append, acceptedCount]
    exact ⟨ih.1, by rw [ih.2]⟩

theorem fifo_pushCycles (n : Nat) :
    (BoundedFifo.run 1 [] (Op.push 7 :: popPushCycles n)).2 = [7] ∧
      acceptedCount (BoundedFifo.run 1 [] (Op.push 7 :: popPushCycles n)).1 = n + 1 := by
  have h := fifo_popPushCycles n
  simp only [BoundedFifo.run, BoundedFifo.step, List.length_nil, Nat.lt_add_one, if_true,
    List.nil_append, acceptedCount]
  exact ⟨h.1, by rw [h.2]⟩

theorem fifo_before_wrap :
    (BoundedFifo.run 1 [] (Op.push 7 :: popPushCycles (2 ^ 64 - 2))).2 = [7] ∧
      acceptedCount (BoundedFifo.run 1 [] (Op.push 7 :: popPushCycles (2 ^ 64 - 2))).1 =
        2 ^ 64 - 1 :=
  fifo_pushCycles (2 ^ 64 - 2)

theorem spsc_before_wrap :
    ((SpscQueue.init 1).run (Op.push 7 :: popPushCycles (2 ^ 64 - 2))).2 =
      { head := 2 ^ 64 - 2, tail := 2 ^ 64 - 1, buf := [7] } := by
  have hf := fifo_before_wrap
  obtain ⟨-, h2, h3⟩ := @SpscQueue.run_sim 1 (by decide)
    (Op.push 7 :: popPushCycles (2 ^ 64 - 2)) (SpscQueue.init 1) [] (SpscQueue.init_Holds 1)
    (by rw [hf.2]; decide)
  rw [hf.1] at h2
  rw [hf.2] at h3
  obtain ⟨hb, ht, -, -, hsl⟩ := h2
  generalize ((SpscQueue.init 1).run (Op.push 7 :: popPushCycles (2 ^ 64 - 2))).2 = q at *
  obtain ⟨hd, tl, buf⟩ := q
  simp only [SpscQueue.init, List.length_singleton, Nat.zero_add] at h3 ht hb
  have h0 := hsl 0 (by simp)
  simp only [Nat.mod_one, List.getElem?_cons_zero] at h0
  have hbuf : buf = [7] := by
    match buf, hb, h0 with
    | [x], _, h0 => simpa using h0
  subst hbuf
  have hhd : hd = 2 ^ 64 - 2 := by omega
  rw [hhd, h3]

theorem spsc_wrapOps_state :
    ((SpscQueue.init 1).run wrapOps).2 = { head := 2 ^ 64 - 1, tail := 0, buf := [7] } := by
  have h : wrapOps = (Op.push 7 :: popPushCycles (2 ^ 64 - 2)) ++ [Op.pop, Op.push 7] := rfl
  rw [h, SpscQueue.run_append, spsc_before_wrap]
  decide

theorem fifo_wrapOps_state : (BoundedFifo.run 1 [] wrapOps).2 = [7] := by
  have h : wrapOps = (Op.push 7 :: popPushCycles (2 ^ 64 - 2)) ++ [Op.pop, Op.push 7] := rfl
  rw [h, BoundedFifo.fifo_run_append, fifo_before_wrap.1]
  decide

theorem spsc_drainOps_state :
    ((SpscQueue.init 1).run drainOps).2 =
      { head := 2 ^ 64 - 1, tail := 2 ^ 64 - 1, buf := [7] } := by
  have h : drainOps = (Op.push 7 :: popPushCycles (2 ^ 64 - 2)) ++ [Op.pop] := rfl
  rw [h, SpscQueue.run_append, spsc_before_wrap]
  decide

/-- C1, evaluated at the failing input: the empty queue of capacity 1 with
`head = tail = 2^64 - 1`, which the call sequence `drainOps` reaches from the freshly constructed
queue. It is well-formed and empty (`size()` is 0), the push of the value 9 returns true and
wraps `tail` to 0, and the pop that follows returns false instead of yielding 9, because
`try_pop` compares the raw counters with `h >= t`. The same happens on the empty queue of
capacity 2 with `head = tail = 2^64 - 1`: the pushes of 10 and 20 return true and both pops
return false. -/
theorem spsc_fifo_order_fails_at_wrap :
    ((SpscQueue.init 1).run drainOps).2 =
      { head := 2 ^ 64 - 1, tail := 2 ^ 64 - 1, buf := [7] } ∧
    IsPowerOfTwo 1 ∧
    ({ head := 2 ^ 64 - 1, tail := 2 ^ 64 - 1, buf := [7] } : SpscQueue 1).WF ∧
    ({ head := 2 ^ 64 - 1, tail := 2 ^ 64 - 1, buf := [7] } : SpscQueue 1).size = 0 ∧
    (({ head := 2 ^ 64 - 1, tail := 2 ^ 64 - 1, buf := [7] } : SpscQueue 1).run
        ([9].map Op.push ++ List.replicate 1 Op.pop)).1 = [Res.pushed true, Res.popped none] ∧
    (({ head := 2 ^ 64 - 1, tail := 2 ^ 64 - 1, buf := [7] } : SpscQueue 1).run
        ([9].map Op.push ++ List.replicate 1 Op.pop)).1 ≠
      [9].map (fun _ => Res.pushed true) ++ [9].map (fun v => Res.popped (some v)) ∧
    (({ head := 2 ^ 64 - 1, tail := 2 ^ 64 - 1, buf := [7] } : SpscQueue 1).run
        ([9].map Op.push ++ List.replicate 1 Op.pop)).2 =
      { head := 2 ^ 64 - 1, tail := 0, buf := [9] } ∧
    IsPowerOfTwo 2 ∧
    ({ head := 2 ^ 64 - 1, tail := 2 ^ 64 - 1, buf := [0, 0] } : SpscQueue 2).WF ∧
    (({ head := 2 ^ 64 - 1, tail := 2 ^ 64 - 1, buf := [0, 0] } : SpscQueue 2).run
        ([10, 20].map Op.push ++ List.replicate 2 Op.pop)).1 =
      [Res.pushed true, Res.pushed true, Res.popped none, Res.popped none] :=
  ⟨spsc_drainOps_state, by decide, by decide, by decide, by decide, by decide, by decide,
    by decide, by decide, by decide⟩

/-- C2, evaluated at the failing input, on a queue of capacity 1: after the call sequence
`wrapOps` (`2^64` accepted pushes of the value 7, each but the last followed by a pop) `tail` has
wrapped to 0 while `head` is `2^64 - 1`; the bounded FIFO list holds one element and `size()` is
1, yet `try_pop`, which compares the raw counters with `h >= t`, returns false, so the results
of `wrapOps` followed by one pop differ from those of the list: the accepted value is never
delivered. -/
theorem spsc_fifo_refinement_fails_after_wrap :
    IsPowerOfTwo 1 ∧
      ((SpscQueue.init 1).run wrapOps).2 = { head := 2 ^ 64 - 1, tail := 0, buf := [7] } ∧
      (BoundedFifo.run 1 [] wrapOps).2 = [7] ∧
      ((SpscQueue.init 1).run wrapOps).2.size = 1 ∧
      ((SpscQueue.init 1).run wrapOps).2.try_pop.1 = none ∧
      ((SpscQueue.init 1).run (wrapOps ++ [Op.pop])).1 ≠
        (BoundedFifo.run 1 [] (wrapOps ++ [Op.pop])).1 := by
  refine ⟨by decide, spsc_wrapOps_state, fifo_wrapOps_state, ?_, ?_, ?_⟩
  · rw [spsc_wrapOps_state]; decide
  · rw [spsc_wrapOps_state]; decide
  · rw [SpscQueue.run_append, BoundedFifo.fifo_run_append, spsc_wrapOps_state, fifo_wrapOps_state]
    intro h
    have h2 := (List.append_inj' h rfl).2
    revert h2
    decide

/-- The refinement away from the wrap of `tail` (the part of C2 that the code meets).
For every power-of-two `Capacity` and every single-threaded sequence of
`try_push` and `try_pop` calls on the freshly constructed queue in which fewer than `2^64` pushes
are accepted, every call returns what the bounded FIFO list of capacity `Capacity` returns
(a push is accepted iff the list has fewer than `Capacity` elements and appends; a pop succeeds
iff the list is non-empty and returns its front), and afterwards the queue holds exactly the
list, oldest value first, in the slots `head .. tail - 1`. In the scenario with capacity 4 the
pushes of 1, 2, 3, 4 succeed, the push of 5 fails, a pop yields 1, the push of 5 succeeds, four
pops yield 2, 3, 4, 5, the final size is 0 and the next pop fails. -/
theorem spsc_refines_bounded_fifo (Capacity : Nat) (ops : List Op) (hC : IsPowerOfTwo Capacity)
    (hw : acceptedCount (BoundedFifo.run Capacity [] ops).1 < 2 ^ 64) :
    (((SpscQueue.init Capacity).run ops).1 = (BoundedFifo.run Capacity [] ops).1 ∧
      ((SpscQueue.init Capacity).run ops).2.Holds (BoundedFifo.run Capacity [] ops).2) ∧
    (((SpscQueue.init 4).run scenarioOps).1 =
        [Res.pushed true, Res.pushed true, Res.pushed true, Res.pushed true, Res.pushed false,
          Res.popped (some 1), Res.pushed true, Res.popped (some 2), Res.popped (some 3),
          Res.popped (some 4), Res.popped (some 5), Res.popped none] ∧
      ((SpscQueue.init 4).run (scenarioOps.take 11)).2.size = 0) := by
  obtain ⟨h1, h2, -⟩ := SpscQueue.run_sim hC ops (SpscQueue.init Capacity) []
    (SpscQueue.init_Holds Capacity) (by simpa [SpscQueue.init, U64] using hw)
  exact ⟨⟨h1, h2⟩, by decide, by decide⟩

/-- Instance of `spsc_refines_bounded_fifo`: the scenario with capacity 4. -/
theorem spsc_refines_bounded_fifo_witness :
    (((SpscQueue.init 4).run scenarioOps).1 = (BoundedFifo.run 4 [] scenarioOps).1 ∧
      ((SpscQueue.init 4).run scenarioOps).2.Holds (BoundedFifo.run 4 [] scenarioOps).2) ∧
    (((SpscQueue.init 4).run scenarioOps).1 =
        [Res.pushed true, Res.pushed true, Res.pushed true, Res.pushed true, Res.pushed false,
          Res.popped (some 1), Res.pushed true, Res.popped (some 2), Res.popped (some 3),
          Res.popped (some 4), Res.popped (some 5), Res.popped none] ∧
      ((SpscQueue.init 4).run (scenarioOps.take 11)).2.size = 0) :=
  spsc_refines_bounded_fifo 4 scenarioOps (by decide) (by decide)

/-! ## push_or_drop and try_pop of MpscDropQueue, one call at a time -/

namespace MpscDropQueue

variable {Capacity : Nat}

theorem init_WF_mpsc (Capacity : Nat) : (init Capacity).WF := by
  simp [WF, init, U64]

theorem init_size_mpsc (Capacity : Nat) : (init Capacity).size = 0 := by
  simp [size, init, sub64, U64]

theorem push_or_drop_full (q : MpscDropQueue Capacity) (val : Nat) (h : q.size ≥ Capacity) :
    q.push_or_drop val = { q with drop_count := (q.drop_count + 1) % U64 } := by
  unfold size at h
  simp [push_or_drop, h]

theorem push_or_drop_ok (q : MpscDropQueue Capacity) (val : Nat) (h : q.size < Capacity) :
    q.push_or_drop val =
      { q with buf := q.buf.set (q.tail &&& mask Capacity) val, tail := (q.tail + 1) % U64 } := by
  unfold size at h
  simp [push_or_drop, Nat.not_le.mpr h]

theorem push_or_drop_size (q : MpscDropQueue Capacity) (val : Nat) (hq : q.WF)
    (h : q.size < Capacity) : (q.push_or_drop val).size = (q.size + 1) % U64 := by
  rw [push_or_drop_ok q val h]
  obtain ⟨hh, ht, -⟩ := hq
  simp only [size, sub64, U64] at *
  omega

theorem push_or_drop_WF (q : MpscDropQueue Capacity) (val : Nat) (hq : q.WF) :
    (q.push_or_drop val).WF := by
  obtain ⟨hh, ht, hd, hb⟩ := hq
  by_cases h : q.size < Capacity
  · rw [push_or_drop_ok q val h]
    refine ⟨hh, Nat.mod_lt _ (by decide), hd, ?_⟩
    simpa using hb
  · rw [push_or_drop_full q val (Nat.not_lt.mp h)]
    exact ⟨hh, ht, Nat.mod_lt _ (by decide), hb⟩

theorem try_pop_empty_mpsc (q : MpscDropQueue Capacity) (h : q.head ≥ q.tail) :
    q.try_pop = (none, q) := by
  simp [try_pop, h]

theorem try_pop_ok_mpsc (q : MpscDropQueue Capacity) (h : q.head < q.tail) :
    q.try_pop =
      (some (q.buf.getD (q.head &&& mask Capacity) 0), { q with head := (q.head + 1) % U64 }) := by
  simp [try_pop, Nat.not_le.mpr h]

theorem try_pop_WF_mpsc (q : MpscDropQueue Capacity) (hq : q.WF) : q.try_pop.2.WF := by
  by_cases h : q.head < q.tail
  · rw [try_pop_ok_mpsc q h]
    exact ⟨Nat.mod_lt _ (by decide), hq.2.1, hq.2.2⟩
  · rw [try_pop_empty_mpsc q (Nat.not_lt.mp h)]
    exact hq

theorem try_pop_size_le_mpsc (q : MpscDropQueue Capacity) (hq : q.WF) :
    q.try_pop.2.size ≤ q.size := by
  by_cases h : q.head < q.tail
  · rw [try_pop_ok_mpsc q h]
    obtain ⟨hh, ht, -⟩ := hq
    simp only [size, sub64, U64] at *
    omega
  · rw [try_pop_empty_mpsc q (Nat.not_lt.mp h)]

theorem try_pop_drop_count (q : MpscDropQueue Capacity) :
    q.try_pop.2.drop_count = q.drop_count := by
  by_cases h : q.head < q.tail
  · rw [try_pop_ok_mpsc q h]
  · rw [try_pop_empty_mpsc q (Nat.not_lt.mp h)]

theorem push_or_drop_size_le (q : MpscDropQueue Capacity) (val : Nat) (hq : q.WF)
    (hs : q.size ≤ Capacity) : (q.push_or_drop val).size ≤ Capacity := by
  by_cases h : q.size < Capacity
  · rw [push_or_drop_size q val hq h]
    exact Nat.le_trans (Nat.mod_le _ _) h
  · rw [push_or_drop_full q val (Nat.not_lt.mp h)]
    exact hs

theorem exec_inv : ∀ (ops : List Op) (q : MpscDropQueue Capacity), q.WF → q.size ≤ Capacity →
    (q.exec ops).WF ∧ (q.exec ops).size ≤ Capacity
  | [], _, hq, hs => ⟨hq, hs⟩
  | Op.push v :: ops, q, hq, hs =>
    exec_inv ops (q.push_or_drop v) (push_or_drop_WF q v hq) (push_or_drop_size_le q v hq hs)
  | Op.pop :: ops, q, hq, hs =>
    exec_inv ops q.try_pop.2 (try_pop_WF_mpsc q hq) (Nat.le_trans (try_pop_size_le_mpsc q hq) hs)

end MpscDropQueue

namespace SpscQueue

variable {Capacity : Nat}

theorem try_push_size_le (q : SpscQueue Capacity) (val : Nat) (hq : q.WF)
    (hs : q.size ≤ Capacity) : (q.try_push val).2.size ≤ Capacity := by
  by_cases h : q.size < Capacity
  · rw [try_push_size q val hq h]
    exact Nat.le_trans (Nat.mod_le _ _) h
  · rw [try_push_full q val (Nat.not_lt.mp h)]
    exact hs

theorem run_inv : ∀ (ops : List Op) (q : SpscQueue Capacity), q.WF → q.size ≤ Capacity →
    (q.run ops).2.WF ∧ (q.run ops).2.size ≤ Capacity
  | [], _, hq, hs => ⟨hq, hs⟩
  | Op.push v :: ops, q, hq, hs =>
    run_inv ops (q.try_push v).2 (try_push_WF q v hq) (try_push_size_le q v hq hs)
  | Op.pop :: ops, q, hq, hs =>
    run_inv ops q.try_pop.2 (try_pop_WF q hq) (Nat.le_trans (try_pop_size_le q hq) hs)

end SpscQueue

/-! ## The capacity invariant and the effect of try_push -/

/-- C3. Capacity invariant: with `tail - head` the unsigned 64-bit difference that `size()` and
the fullness tests compute, `0 ≤ tail - head ≤ Capacity` holds in the initial state of both
queues, is preserved by `try_push` and `try_pop` of `SpscQueue` and by `push_or_drop` and
`try_pop` of `MpscDropQueue` from every state that satisfies it, and therefore holds after every
single-threaded sequence of pushes and pops. -/
theorem capacity_invariant (Capacity : Nat) :
    (0 ≤ (SpscQueue.init Capacity).size ∧ (SpscQueue.init Capacity).size ≤ Capacity) ∧
    (∀ (q : SpscQueue Capacity) (v : Nat), q.WF → q.size ≤ Capacity →
      0 ≤ (q.try_push v).2.size ∧ (q.try_push v).2.size ≤ Capacity) ∧
    (∀ (q : SpscQueue Capacity), q.WF → q.size ≤ Capacity →
      0 ≤ q.try_pop.2.size ∧ q.try_pop.2.size ≤ Capacity) ∧
    (∀ ops : List Op, 0 ≤ ((SpscQueue.init Capacity).run ops).2.size ∧
      ((SpscQueue.init Capacity).run ops).2.size ≤ Capacity) ∧
    (0 ≤ (MpscDropQueue.init Capacity).size ∧ (MpscDropQueue.init Capacity).size ≤ Capacity) ∧
    (∀ (q : MpscDropQueue Capacity) (v : Nat), q.WF → q.size ≤ Capacity →
      0 ≤ (q.push_or_drop v).size ∧ (q.push_or_drop v).size ≤ Capacity) ∧
    (∀ (q : MpscDropQueue Capacity), q.WF → q.size ≤ Capacity →
      0 ≤ q.try_pop.2.size ∧ q.try_pop.2.size ≤ Capacity) ∧
    (∀ ops : List Op, 0 ≤ ((MpscDropQueue.init Capacity).exec ops).size ∧
      ((MpscDropQueue.init Capacity).exec ops).size ≤ Capacity) := by
  refine ⟨⟨Nat.zero_le _, ?_⟩, ?_, ?_, ?_, ⟨Nat.zero_le _, ?_⟩, ?_, ?_, ?_⟩
  · rw [SpscQueue.init_size]; exact Nat.zero_le _
  · intro q v hq hs
    exact ⟨Nat.zero_le _, SpscQueue.try_push_size_le q v hq hs⟩
  · intro q hq hs
    exact ⟨Nat.zero_le _, Nat.le_trans (SpscQueue.try_pop_size_le q hq) hs⟩
  · intro ops
    refine ⟨Nat.zero_le _, (SpscQueue.run_inv ops _ (SpscQueue.init_WF Capacity) ?_).2⟩
    rw [SpscQueue.init_size]; exact Nat.zero_le _
  · rw [MpscDropQueue.init_size_mpsc]; exact Nat.zero_le _
  · intro q v hq hs
    exact ⟨Nat.zero_le _, MpscDropQueue.push_or_drop_size_le q v hq hs⟩
  · intro q hq hs
    exact ⟨Nat.zero_le _, Nat.le_trans (MpscDropQueue.try_pop_size_le_mpsc q hq) hs⟩
  · intro ops
    refine ⟨Nat.zero_le _,
      (MpscDropQueue.exec_inv ops _ (MpscDropQueue.init_WF_mpsc Capacity) ?_).2⟩
    rw [MpscDropQueue.init_size_mpsc]; exact Nat.zero_le _

/-- C4. `try_push` on a full queue (`tail - head ≥ Capacity`) returns false and leaves the whole
state unchanged; on a queue that is not full it returns true, the slot `tail & (Capacity - 1)`
lies inside the buffer and afterwards holds the value, `tail` is advanced by one (in `uint64_t`
arithmetic, so that `size()` grows by exactly one), and `head` and every other slot are
unchanged. -/
theorem try_push_effect (Capacity : Nat) (q : SpscQueue Capacity) (val : Nat)
    (hC : Capacity < U32) (hq : q.WF) :
    (q.size ≥ Capacity → q.try_push val = (false, q)) ∧
    (q.size < Capacity →
      (q.try_push val).1 = true ∧
      q.tail &&& mask Capacity < Capacity ∧
      (q.try_push val).2.buf[q.tail &&& mask Capacity]? = some val ∧
      (q.try_push val).2.tail = (q.tail + 1) % U64 ∧
      (q.try_push val).2.size = q.size + 1 ∧
      (q.try_push val).2.head = q.head ∧
      (q.try_push val).2.buf.length = q.buf.length ∧
      ∀ j, j ≠ q.tail &&& mask Capacity → (q.try_push val).2.buf[j]? = q.buf[j]?) := by
  refine ⟨SpscQueue.try_push_full q val, ?_⟩
  intro h
  have hidx : q.tail &&& mask Capacity < Capacity := index_lt (by omega) _
  have hsz := SpscQueue.try_push_size q val hq h
  rw [SpscQueue.try_push_ok q val h] at hsz ⊢
  refine ⟨rfl, hidx, ?_, rfl, ?_, rfl, ?_, ?_⟩
  · exact List.getElem?_set_self (by rw [hq.2.2]; exact hidx)
  · rw [hsz]
    apply Nat.mod_eq_of_lt
    simp only [U32, U64] at *
    omega
  · simp
  · intro j hj
    exact List.getElem?_set_ne (Ne.symm hj)

/-- Witness for C3 at capacity 4: a push into the empty queue, a push into a full queue, and a
pop, each from a state that satisfies the invariant. -/
theorem capacity_invariant_witness :
    (0 ≤ ((SpscQueue.init 4).try_push 9).2.size ∧ ((SpscQueue.init 4).try_push 9).2.size ≤ 4) ∧
    (0 ≤ (({ head := 3, tail := 7, buf := [4, 5, 6, 3], drop_count := 2 } :
        MpscDropQueue 4).push_or_drop 9).size ∧
      (({ head := 3, tail := 7, buf := [4, 5, 6, 3], drop_count := 2 } :
        MpscDropQueue 4).push_or_drop 9).size ≤ 4) ∧
    (0 ≤ ({ head := 3, tail := 7, buf := [4, 5, 6, 3] } : SpscQueue 4).try_pop.2.size ∧
      ({ head := 3, tail := 7, buf := [4, 5, 6, 3] } : SpscQueue 4).try_pop.2.size ≤ 4) :=
  ⟨(capacity_invariant 4).2.1 (SpscQueue.init 4) 9 (by decide) (by decide),
    (capacity_invariant 4).2.2.2.2.2.1
      { head := 3, tail := 7, buf := [4, 5, 6, 3], drop_count := 2 } 9 (by decide) (by decide),
    (capacity_invariant 4).2.2.1 { head := 3, tail := 7, buf := [4, 5, 6, 3] }
      (by decide) (by decide)⟩

/-- Witness for C4 at capacity 4: a push into a full queue and a push into the empty queue. -/
theorem try_push_effect_witness :
    ({ head := 3, tail := 7, buf := [4, 5, 6, 3] } : SpscQueue 4).try_push 9 =
        (false, { head := 3, tail := 7, buf := [4, 5, 6, 3] }) ∧
      ((SpscQueue.init 4).try_push 9).1 = true ∧
      ((SpscQueue.init 4).try_push 9).2.buf[(SpscQueue.init 4).tail &&& mask 4]? = some 9 ∧
      ((SpscQueue.init 4).try_push 9).2.tail = ((SpscQueue.init 4).tail + 1) % U64 :=
  ⟨(try_push_effect 4 { head := 3, tail := 7, buf := [4, 5, 6, 3] } 9
      (by decide) (by decide)).1 (by decide),
    ((try_push_effect 4 (SpscQueue.init 4) 9 (by decide) (by decide)).2 (by decide)).1,
    ((try_push_effect 4 (SpscQueue.init 4) 9 (by decide) (by decide)).2 (by decide)).2.2.1,
    ((try_push_effect 4 (SpscQueue.init 4) 9 (by decide) (by decide)).2 (by decide)).2.2.2.1⟩

/-! ## The capacity check -/

theorem land_even (m : Nat) (hm : 0 < m) : (2 * m) &&& (2 * m - 1) = 2 * (m &&& (m - 1)) := by
  have h1 : 2 * m = Nat.bit false m := by simp [Nat.bit_val]
  have h2 : 2 * m - 1 = Nat.bit true (m - 1) := by simp [Nat.bit_val]; omega
  rw [h2, h1, Nat.land_bit]
  simp [Nat.bit_val]

theorem land_odd (m : Nat) : (2 * m + 1) &&& (2 * m + 1 - 1) = 2 * m := by
  have h1 : 2 * m + 1 = Nat.bit true m := by simp [Nat.bit_val]
  have h2 : 2 * m + 1 - 1 = Nat.bit false m := by simp [Nat.bit_val]
  rw [h2, h1, Nat.land_bit]
  simp [Nat.bit_val]

theorem two_pow_of_land_pred : ∀ n : Nat, 0 < n → n &&& (n - 1) = 0 → ∃ k, n = 2 ^ k := by
  intro n
  induction n using Nat.strong_induction_on with
  | _ n ih =>
    intro hn h
    rcases Nat.even_or_odd' n with ⟨m, rfl | rfl⟩
    · have hm : 0 < m := by omega
      rw [land_even m hm] at h
      obtain ⟨k, hk⟩ := ih m (by omega) hm (by omega)
      exact ⟨k + 1, by rw [hk, Nat.pow_succ]; omega⟩
    · rw [land_odd] at h
      exact ⟨0, by simp; omega⟩

/-- For every non-zero `uint32_t` value the capacity check accepts exactly the powers of two. -/
theorem capacityCheck_iff_of_pos (Capacity : Nat) (hpos : 0 < Capacity) (hlt : Capacity < U32) :
    capacityCheck Capacity = true ↔ IsPowerOfTwo Capacity := by
  have hm : mask Capacity = Capacity - 1 := by
    rw [mask_of_pos hpos]
    exact Nat.mod_eq_of_lt (by omega)
  constructor
  · intro h
    simp only [capacityCheck, hm, beq_iff_eq] at h
    obtain ⟨k, hk⟩ := two_pow_of_land_pred Capacity hpos h
    refine ⟨k, ?_, hk⟩
    by_contra hk32
    have : 2 ^ 32 ≤ 2 ^ k := Nat.pow_le_pow_right (by decide) (by omega)
    simp only [U32] at hlt
    omega
  · rintro ⟨k, hk, rfl⟩
    simp only [capacityCheck, beq_iff_eq]
    rw [index_two_pow hk]
    exact Nat.mod_self _

/-- C9, evaluated at the failing input: the capacity check accepts `Capacity = 0`, which is not a
power of two; it rejects 5 and accepts 4096. -/
theorem capacityCheck_accepts_zero :
    capacityCheck 0 = true ∧ ¬ IsPowerOfTwo 0 ∧
      capacityCheck 5 = false ∧ capacityCheck 4096 = true := by
  refine ⟨by decide, ?_, by decide, by decide⟩
  intro h
  exact absurd h.pos (by decide)

/-! ## AdaptiveBackoff -/

namespace AdaptiveBackoff

theorem wait_idle (b : AdaptiveBackoff) : b.wait.2.idle_count_ = (b.idle_count_ + 1) % U32 := by
  unfold wait
  simp only
  split
  · rfl
  · split <;> rfl

theorem wait_phase_of_lt (b : AdaptiveBackoff) (h : b.idle_count_ + 1 < U32) :
    b.wait.1 = if b.idle_count_ + 1 < 64 then Phase.spin
      else if b.idle_count_ + 1 < 256 then Phase.yield else Phase.sleep := by
  unfold wait
  simp only [Nat.mod_eq_of_lt h, kSpinThreshold, kYieldThreshold]
  split
  · rfl
  · split <;> rfl

theorem length_waits (n : Nat) : ∀ b : AdaptiveBackoff, (b.waits n).length = n := by
  induction n with
  | zero => intro b; rfl
  | succ n ih => intro b; simp [waits, ih]

theorem waits_getElem? (n : Nat) : ∀ (b : AdaptiveBackoff) (i : Nat), i < n →
    (b.waits n)[i]? = some ({ idle_count_ := b.idle_count_ + i } : AdaptiveBackoff).wait.1 := by
  induction n with
  | zero => intro b i hi; omega
  | succ n ih =>
    intro b i hi
    cases i with
    | zero => simp [waits]
    | succ i =>
      simp only [waits, List.getElem?_cons_succ]
      rw [ih b.wait.2 i (by omega), wait_idle]
      unfold wait
      simp only
      have hm : ((b.idle_count_ + 1) % U32 + i + 1) % U32 =
          (b.idle_count_ + (i + 1) + 1) % U32 := by
        simp only [U32]
        omega
      rw [hm]

theorem waits_getElem (n : Nat) (b : AdaptiveBackoff) (i : Nat) (hi : i < (b.waits n).length) :
    (b.waits n)[i] = ({ idle_count_ := b.idle_count_ + i } : AdaptiveBackoff).wait.1 := by
  have h := waits_getElem? n b i (by rwa [length_waits] at hi)
  rw [List.getElem?_eq_getElem hi] at h
  exact Option.some.inj h

theorem rank_wait_mono (i j : Nat) (hij : i ≤ j) (hj : j + 1 < U32) :
    ({ idle_count_ := i } : AdaptiveBackoff).wait.1.rank ≤
      ({ idle_count_ := j } : AdaptiveBackoff).wait.1.rank := by
  rw [wait_phase_of_lt _ (show i + 1 < U32 by omega), wait_phase_of_lt _ hj]
  simp only
  split_ifs <;> simp only [Phase.rank] <;> omega

end AdaptiveBackoff

/-- Counterexample to C7 as stated: from `idle_count_ = 0`, the `(2^32 - 1)`-th consecutive
`wait()` sleeps, the `2^32`-th increments the `uint32_t` counter from `2^32 - 1` to 0 and spins,
so the phases of `2^32` consecutive calls are not non-decreasing. -/
theorem backoff_phase_drops_at_wrap :
    (AdaptiveBackoff.init.waits (2 ^ 32))[2 ^ 32 - 2]? = some Phase.sleep ∧
      (AdaptiveBackoff.init.waits (2 ^ 32))[2 ^ 32 - 1]? = some Phase.spin ∧
      ¬ NonDecreasing (AdaptiveBackoff.init.waits (2 ^ 32)) := by
  have h1 := AdaptiveBackoff.waits_getElem? (2 ^ 32) AdaptiveBackoff.init (2 ^ 32 - 2) (by decide)
  have h2 := AdaptiveBackoff.waits_getElem? (2 ^ 32) AdaptiveBackoff.init (2 ^ 32 - 1) (by decide)
  have e1 : ({ idle_count_ := AdaptiveBackoff.init.idle_count_ + (2 ^ 32 - 2) } :
      AdaptiveBackoff).wait.1 = Phase.sleep := by decide
  have e2 : ({ idle_count_ := AdaptiveBackoff.init.idle_count_ + (2 ^ 32 - 1) } :
      AdaptiveBackoff).wait.1 = Phase.spin := by decide
  rw [e1] at h1
  rw [e2] at h2
  refine ⟨h1, h2, ?_⟩
  intro h
  rw [NonDecreasing, List.pairwise_iff_getElem] at h
  have hl := AdaptiveBackoff.length_waits (2 ^ 32) AdaptiveBackoff.init
  have hi : 2 ^ 32 - 2 < (AdaptiveBackoff.init.waits (2 ^ 32)).length := by rw [hl]; decide
  have hj : 2 ^ 32 - 1 < (AdaptiveBackoff.init.waits (2 ^ 32)).length := by rw [hl]; decide
  have := h (2 ^ 32 - 2) (2 ^ 32 - 1) hi hj (by decide)
  rw [List.getElem?_eq_getElem hi] at h1
  rw [List.getElem?_eq_getElem hj] at h2
  rw [Option.some.inj h1, Option.some.inj h2] at this
  exact absurd this (by decide)

/-- C7 (amended). Backoff monotonicity: starting from `idle_count_ = 0`, for every `N < 2^32`
the phases executed by `N` consecutive `wait()` calls with no intervening `reset()` form a
non-decreasing sequence in the order spin < yield < sleep. -/
theorem backoff_monotone (N : Nat) (hN : N < 2 ^ 32) :
    NonDecreasing (AdaptiveBackoff.init.waits N) := by
  rw [NonDecreasing, List.pairwise_iff_getElem]
  intro i j hi hj hij
  rw [AdaptiveBackoff.waits_getElem, AdaptiveBackoff.waits_getElem]
  rw [AdaptiveBackoff.length_waits] at hj
  simp only [AdaptiveBackoff.init, Nat.zero_add]
  apply AdaptiveBackoff.rank_wait_mono i j (by omega)
  simp only [U32]
  omega

/-- Witness for C7 (amended): 300 consecutive waits. -/
theorem backoff_monotone_witness : NonDecreasing (AdaptiveBackoff.init.waits 300) :=
  backoff_monotone 300 (by decide)

/-- C8. `reset()` returns the strategy to the spin phase: from every state, `reset()` sets
`idle_count_` to zero and the next `wait()` executes the spin phase (leaving `idle_count_ = 1`). -/
theorem reset_returns_to_spin (b : AdaptiveBackoff) :
    b.reset.idle_count_ = 0 ∧ b.reset.wait.1 = Phase.spin ∧ b.reset.wait.2.idle_count_ = 1 :=
  ⟨rfl, rfl, rfl⟩

/-! ## Drop accounting of MpscDropQueue -/

namespace MpscDropQueue

variable {Capacity : Nat}

theorem try_pop_tail (q : MpscDropQueue Capacity) : q.try_pop.2.tail = q.tail := by
  by_cases h : q.head < q.tail
  · rw [try_pop_ok_mpsc q h]
  · rw [try_pop_empty_mpsc q (Nat.not_lt.mp h)]

theorem exec_accounting : ∀ (ops : List Op) (q : MpscDropQueue Capacity),
    q.tail + total_push_attempts ops < U64 → q.drop_count + total_push_attempts ops < U64 →
    (q.exec ops).tail = q.tail + q.successful_pushes ops ∧
      q.successful_pushes ops + (q.exec ops).drop_count =
        q.drop_count + total_push_attempts ops := by
  intro ops
  induction ops with
  | nil => intro q _ _; simp [exec, successful_pushes, total_push_attempts]
  | cons op ops ih =>
    intro q ht hd
    cases op with
    | push v =>
      simp only [total_push_attempts] at ht hd
      simp only [exec, step, successful_pushes, total_push_attempts]
      by_cases h : q.size < Capacity
      · have ht' : (q.push_or_drop v).tail = q.tail + 1 := by
          rw [push_or_drop_ok q v h]
          exact Nat.mod_eq_of_lt (by omega)
        have hd' : (q.push_or_drop v).drop_count = q.drop_count := by
          rw [push_or_drop_ok q v h]
        obtain ⟨r1, r2⟩ := ih (q.push_or_drop v) (by omega) (by omega)
        have hne : ¬ (q.push_or_drop v).tail = q.tail := by omega
        rw [if_neg hne, r1, ht']
        exact ⟨by omega, by omega⟩
      · have ht' : (q.push_or_drop v).tail = q.tail := by
          rw [push_or_drop_full q v (Nat.not_lt.mp h)]
        have hd' : (q.push_or_drop v).drop_count = q.drop_count + 1 := by
          rw [push_or_drop_full q v (Nat.not_lt.mp h)]
          exact Nat.mod_eq_of_lt (by omega)
        obtain ⟨r1, r2⟩ := ih (q.push_or_drop v) (by omega) (by omega)
        rw [if_pos ht', r1, ht']
        exact ⟨by omega, by omega⟩
    | pop =>
      simp only [total_push_attempts] at ht hd
      simp only [exec, step, successful_pushes, total_push_attempts]
      obtain ⟨r1, r2⟩ := ih q.try_pop.2 (by rw [try_pop_tail]; exact ht)
        (by rw [try_pop_drop_count]; exact hd)
      rw [try_pop_tail] at r1
      rw [try_pop_drop_count] at r2
      exact ⟨r1, r2⟩

theorem exec_pushes_full (n : Nat) : ∀ (q : MpscDropQueue Capacity), q.size ≥ Capacity →
    q.drop_count < U64 →
    q.exec (pushes n) = { q with drop_count := (q.drop_count + n) % U64 } ∧
      q.successful_pushes (pushes n) = 0 := by
  induction n with
  | zero =>
    intro q _ hd
    simp [pushes, exec, successful_pushes, Nat.mod_eq_of_lt hd]
  | succ n ih =>
    intro q h hd
    have hq : q.push_or_drop 7 = { q with drop_count := (q.drop_count + 1) % U64 } :=
      push_or_drop_full q 7 h
    have hs : (q.push_or_drop 7).size ≥ Capacity := by rw [hq]; exact h
    have hd' : (q.push_or_drop 7).drop_count < U64 := by
      rw [hq]; exact Nat.mod_lt _ (by decide)
    obtain ⟨r1, r2⟩ := ih (q.push_or_drop 7) hs hd'
    simp only [pushes, List.replicate_succ, exec, step, successful_pushes] at *
    rw [r1, r2, hq]
    refine ⟨?_, by simp⟩
    have : ((q.drop_count + 1) % U64 + n) % U64 = (q.drop_count + (n + 1)) % U64 := by
      simp only [U64]; omega
    simp only [this]

theorem total_push_attempts_pushes (n : Nat) : total_push_attempts (pushes n) = n := by
  induction n with
  | zero => rfl
  | succ n ih => simp only [pushes, List.replicate_succ, total_push_attempts] at *; rw [ih]

theorem exec_init_pushes (n : Nat) :
    ((init 1).exec (pushes (n + 1))) =
        { head := 0, tail := 1, buf := [7], drop_count := n % U64 } ∧
      (init 1).successful_pushes (pushes (n + 1)) = 1 := by
  have hq : (init 1).push_or_drop 7 = { head := 0, tail := 1, buf := [7], drop_count := 0 } := by
    decide
  obtain ⟨r1, r2⟩ := exec_pushes_full n
    ({ head := 0, tail := 1, buf := [7], drop_count := 0 } : MpscDropQueue 1) (by decide)
    (by decide)
  simp only [pushes, List.replicate_succ, exec, step, successful_pushes, hq] at *
  rw [r1, r2]
  simp [init]

theorem exec_init_pushes_pos (n : Nat) (hn : 0 < n) :
    ((init 1).exec (pushes n)) =
        { head := 0, tail := 1, buf := [7], drop_count := (n - 1) % U64 } ∧
      (init 1).successful_pushes (pushes n) = 1 := by
  obtain ⟨m, rfl⟩ : ∃ m, n = m + 1 := ⟨n - 1, by omega⟩
  exact exec_init_pushes m

end MpscDropQueue

/-- Counterexample to C5 as stated, on a queue of capacity 1: of `2^64 + 1` consecutive
`push_or_drop` calls the first advances `tail` and the other `2^64` are dropped, which wraps the
`uint64_t` counter `drop_count` back to 0; then `successful_pushes + drop_count` is 1, not the
number of calls made. -/
theorem mpsc_drop_accounting_fails_after_wrap :
    total_push_attempts (pushes (2 ^ 64 + 1)) = 2 ^ 64 + 1 ∧
      (MpscDropQueue.init 1).successful_pushes (pushes (2 ^ 64 + 1)) = 1 ∧
      ((MpscDropQueue.init 1).exec (pushes (2 ^ 64 + 1))).tail = 1 ∧
      ((MpscDropQueue.init 1).exec (pushes (2 ^ 64 + 1))).drop_count = 0 ∧
      (MpscDropQueue.init 1).successful_pushes (pushes (2 ^ 64 + 1)) +
          ((MpscDropQueue.init 1).exec (pushes (2 ^ 64 + 1))).drop_count ≠
        total_push_attempts (pushes (2 ^ 64 + 1)) := by
  obtain ⟨h1, h2⟩ := MpscDropQueue.exec_init_pushes_pos (2 ^ 64 + 1) (by decide)
  have h3 := MpscDropQueue.total_push_attempts_pushes (2 ^ 64 + 1)
  rw [h1, h2, h3]
  decide

/-- C5 (amended). Drop accounting: after every single-threaded sequence of `push_or_drop` and
`try_pop` calls on the freshly constructed `MpscDropQueue` that contains fewer than `2^64`
`push_or_drop` calls, `successful_pushes + drop_count == total_push_attempts`, where
`successful_pushes` is the number of `push_or_drop` calls that advanced `tail` and equals the
final value of `tail`. -/
theorem mpsc_drop_accounting (Capacity : Nat) (ops : List Op)
    (h : total_push_attempts ops < 2 ^ 64) :
    (MpscDropQueue.init Capacity).successful_pushes ops +
        ((MpscDropQueue.init Capacity).exec ops).drop_count = total_push_attempts ops ∧
      (MpscDropQueue.init Capacity).successful_pushes ops =
        ((MpscDropQueue.init Capacity).exec ops).tail := by
  obtain ⟨r1, r2⟩ := MpscDropQueue.exec_accounting ops (MpscDropQueue.init Capacity)
    (by simpa [MpscDropQueue.init, U64] using h) (by simpa [MpscDropQueue.init, U64] using h)
  simp only [MpscDropQueue.init, Nat.zero_add] at r1 r2 ⊢
  exact ⟨r2, r1.symm⟩

/-- Witness for C5 (amended): capacity 2, six calls of which three pushes succeed and two are
dropped. -/
theorem mpsc_drop_accounting_witness :
    (MpscDropQueue.init 2).successful_pushes
          [Op.push 1, Op.push 2, Op.push 3, Op.pop, Op.push 4, Op.push 5] +
        ((MpscDropQueue.init 2).exec
          [Op.push 1, Op.push 2, Op.push 3, Op.pop, Op.push 4, Op.push 5]).drop_count =
        total_push_attempts [Op.push 1, Op.push 2, Op.push 3, Op.pop, Op.push 4, Op.push 5] ∧
      (MpscDropQueue.init 2).successful_pushes
          [Op.push 1, Op.push 2, Op.push 3, Op.pop, Op.push 4, Op.push 5] =
        ((MpscDropQueue.init 2).exec
          [Op.push 1, Op.push 2, Op.push 3, Op.pop, Op.push 4, Op.push 5]).tail :=
  mpsc_drop_accounting 2 [Op.push 1, Op.push 2, Op.push 3, Op.pop, Op.push 4, Op.push 5]
    (by decide)

/-- Counterexample to C6 as stated, on a queue of capacity 1: after `2^64` consecutive
`push_or_drop` calls on the freshly constructed queue `drop_count` is `2^64 - 1` and the queue is
full; the next `push_or_drop` wraps `drop_count` to 0, so `drop_count` has decreased. -/
theorem mpsc_drop_count_decreases_at_wrap :
    (MpscDropQueue.init 1).exec (pushes (2 ^ 64)) =
        { head := 0, tail := 1, buf := [7], drop_count := 2 ^ 64 - 1 } ∧
      (((MpscDropQueue.init 1).exec (pushes (2 ^ 64))).push_or_drop 7).drop_count = 0 ∧
      (((MpscDropQueue.init 1).exec (pushes (2 ^ 64))).push_or_drop 7).drop_count <
        ((MpscDropQueue.init 1).exec (pushes (2 ^ 64))).drop_count := by
  have h := (MpscDropQueue.exec_init_pushes_pos (2 ^ 64) (by decide)).1
  have e : (2 ^ 64 - 1) % U64 = 2 ^ 64 - 1 := by decide
  rw [e] at h
  rw [h]
  exact ⟨rfl, by decide, by decide⟩

/-- C6 (amended). Drop does not claim a slot: on a full `MpscDropQueue` (`tail - head ≥ Capacity`)
`push_or_drop` increments `drop_count` by one in `uint64_t` arithmetic and leaves `head`, `tail`
and every buffer slot unchanged; on a queue that is not full it leaves `drop_count` unchanged,
stores the value at slot `tail & (Capacity - 1)` and advances `tail` by one. `try_pop` never
changes `drop_count`. Hence no call decreases `drop_count` as long as it is below `2^64 - 1`. -/
theorem push_or_drop_effect (Capacity : Nat) (q : MpscDropQueue Capacity) (val : Nat)
    (hC : Capacity < U32) (hq : q.WF) :
    (q.size ≥ Capacity →
      (q.push_or_drop val).drop_count = (q.drop_count + 1) % U64 ∧
      (q.push_or_drop val).head = q.head ∧ (q.push_or_drop val).tail = q.tail ∧
      (q.push_or_drop val).buf = q.buf) ∧
    (q.size < Capacity →
      (q.push_or_drop val).drop_count = q.drop_count ∧
      q.tail &&& mask Capacity < Capacity ∧
      (q.push_or_drop val).buf[q.tail &&& mask Capacity]? = some val ∧
      (q.push_or_drop val).tail = (q.tail + 1) % U64 ∧
      (q.push_or_drop val).size = q.size + 1 ∧
      (q.push_or_drop val).head = q.head ∧
      ∀ j, j ≠ q.tail &&& mask Capacity → (q.push_or_drop val).buf[j]? = q.buf[j]?) ∧
    q.try_pop.2.drop_count = q.drop_count ∧
    (q.drop_count < 2 ^ 64 - 1 →
      q.drop_count ≤ (q.push_or_drop val).drop_count ∧
      (q.push_or_drop val).drop_count ≤ q.drop_count + 1 ∧
      q.drop_count ≤ q.try_pop.2.drop_count) := by
  refine ⟨?_, ?_, MpscDropQueue.try_pop_drop_count q, ?_⟩
  · intro h
    rw [MpscDropQueue.push_or_drop_full q val h]
    exact ⟨rfl, rfl, rfl, rfl⟩
  · intro h
    have hidx : q.tail &&& mask Capacity < Capacity := index_lt (by omega) _
    have hsz := MpscDropQueue.push_or_drop_size q val hq h
    rw [MpscDropQueue.push_or_drop_ok q val h] at hsz ⊢
    refine ⟨rfl, hidx, ?_, rfl, ?_, rfl, ?_⟩
    · exact List.getElem?_set_self (by rw [hq.2.2.2]; exact hidx)
    · rw [hsz]
      apply Nat.mod_eq_of_lt
      simp only [U32, U64] at *
      omega
    · intro j hj
      exact List.getElem?_set_ne (Ne.symm hj)
  · intro hd
    rw [MpscDropQueue.try_pop_drop_count]
    by_cases h : q.size < Capacity
    · rw [MpscDropQueue.push_or_drop_ok q val h]
      exact ⟨Nat.le_refl _, Nat.le_succ _, Nat.le_refl _⟩
    · rw [MpscDropQueue.push_or_drop_full q val (Nat.not_lt.mp h)]
      have : (q.drop_count + 1) % U64 = q.drop_count + 1 :=
        Nat.mod_eq_of_lt (by simp only [U64]; omega)
      simp only [this]
      exact ⟨Nat.le_succ _, Nat.le_refl _, Nat.le_refl _⟩

/-- Witness for C6 (amended) at capacity 4: a drop on a full queue and a push into the empty
queue. -/
theorem push_or_drop_effect_witness :
    ((({ head := 3, tail := 7, buf := [4, 5, 6, 3], drop_count := 2 } :
          MpscDropQueue 4).push_or_drop 9).drop_count = (2 + 1) % U64 ∧
      (({ head := 3, tail := 7, buf := [4, 5, 6, 3], drop_count := 2 } :
          MpscDropQueue 4).push_or_drop 9).head = 3 ∧
      (({ head := 3, tail := 7, buf := [4, 5, 6, 3], drop_count := 2 } :
          MpscDropQueue 4).push_or_drop 9).tail = 7 ∧
      (({ head := 3, tail := 7, buf := [4, 5, 6, 3], drop_count := 2 } :
          MpscDropQueue 4).push_or_drop 9).buf = [4, 5, 6, 3]) ∧
    ((MpscDropQueue.init 4).push_or_drop 9).drop_count = (MpscDropQueue.init 4).drop_count ∧
    (MpscDropQueue.init 4).drop_count ≤ ((MpscDropQueue.init 4).push_or_drop 9).drop_count :=
  ⟨(push_or_drop_effect 4 { head := 3, tail := 7, buf := [4, 5, 6, 3], drop_count := 2 } 9
      (by decide) (by decide)).1 (by decide),
    ((push_or_drop_effect 4 (MpscDropQueue.init 4) 9 (by decide) (by decide)).2.1
      (by decide)).1,
    ((push_or_drop_effect 4 (MpscDropQueue.init 4) 9 (by decide) (by decide)).2.2.2
      (by decide)).1⟩

/-! ## Two concurrent producers on MpscDropQueue -/

/-- A producer that runs its four memory accesses without interruption performs exactly the
method `push_or_drop`. -/
theorem producer_alone_eq_push_or_drop (Capacity : Nat) (s : TwoProducers Capacity)
    (h : s.a.pc = 0) :
    (s.run [Tid.A, Tid.A, Tid.A, Tid.A]).q = s.q.push_or_drop s.a.val ∧
      (s.run [Tid.A, Tid.A, Tid.A, Tid.A]).a.pc = 4 := by
  obtain ⟨q, a, b⟩ := s
  obtain ⟨val, pc, t, hh, slot⟩ := a
  simp only at h
  subst h
  by_cases hf : sub64 q.tail q.head ≥ Capacity
  · simp [TwoProducers.run, TwoProducers.step, MpscDropQueue.producerStep,
      MpscDropQueue.push_or_drop, hf]
  · simp [TwoProducers.run, TwoProducers.step, MpscDropQueue.producerStep,
      MpscDropQueue.push_or_drop, hf]

/-- C11, evaluated at the failing input: two producers call `push_or_drop(1)` and
`push_or_drop(2)` on the freshly constructed queue of capacity 4 and their memory accesses
alternate. Both load `tail = 0`, both write slot 0 (the value 1 is overwritten), and both store
`tail = 1`: `tail` advances by one, not two, and nothing is counted as dropped. Of the 70
interleavings of the two calls only the two without overlap give distinct slots and
`tail = 2`. -/
theorem mpsc_two_producers_lost_update :
    (TwoProducers.start 4).run
        [Tid.A, Tid.B, Tid.A, Tid.B, Tid.A, Tid.B, Tid.A, Tid.B] =
      { q := { head := 0, tail := 1, buf := [2, 0, 0, 0], drop_count := 0 },
        a := { val := 1, pc := 4, t := 0, h := 0, slot := some 0 },
        b := { val := 2, pc := 4, t := 0, h := 0, slot := some 0 } } ∧
    ¬ ((TwoProducers.start 4).run
        [Tid.A, Tid.B, Tid.A, Tid.B, Tid.A, Tid.B, Tid.A, Tid.B]).Reserved ∧
    interleavings.length = 70 ∧
    ∀ s ∈ interleavings, ((TwoProducers.start 4).run s).Reserved ↔
      (s = [Tid.A, Tid.A, Tid.A, Tid.A, Tid.B, Tid.B, Tid.B, Tid.B] ∨
        s = [Tid.B, Tid.B, Tid.B, Tid.B, Tid.A, Tid.A, Tid.A, Tid.A]) := by
  refine ⟨by decide, by decide, by decide, ?_⟩
  decide

/-! ## The phase executed by wait() -/

/-- C12. Phase is a function of the incremented idle count: from every state, `wait()` first
increments `idle_count_` (in `uint32_t` arithmetic) and then spins iff the new value is below 64,
yields iff it is at least 64 and below 256, and sleeps iff it is at least 256, so exactly one of
the three phases is executed. Hence, starting from `idle_count_ = 0`, the `k`-th of `N`
consecutive `wait()` calls (`1 ≤ k ≤ N`, `k < 2^32`) spins exactly for `k ≤ 63`, yields exactly
for `64 ≤ k ≤ 255` and sleeps exactly for `k ≥ 256`. -/
theorem wait_phase_of_count (b : AdaptiveBackoff) (N k : Nat) (hk1 : 1 ≤ k) (hkN : k ≤ N)
    (hk : k < 2 ^ 32) :
    b.wait.2.idle_count_ = (b.idle_count_ + 1) % U32 ∧
    (b.wait.1 = Phase.spin ↔ b.wait.2.idle_count_ < 64) ∧
    (b.wait.1 = Phase.yield ↔ 64 ≤ b.wait.2.idle_count_ ∧ b.wait.2.idle_count_ < 256) ∧
    (b.wait.1 = Phase.sleep ↔ 256 ≤ b.wait.2.idle_count_) ∧
    (AdaptiveBackoff.init.waits N)[k - 1]? =
      some (if k ≤ 63 then Phase.spin else if k ≤ 255 then Phase.yield else Phase.sleep) ∧
    ((AdaptiveBackoff.init.waits N)[k - 1]? = some Phase.spin ↔ k ≤ 63) ∧
    ((AdaptiveBackoff.init.waits N)[k - 1]? = some Phase.yield ↔ 64 ≤ k ∧ k ≤ 255) ∧
    ((AdaptiveBackoff.init.waits N)[k - 1]? = some Phase.sleep ↔ 256 ≤ k) := by
  have hone : b.wait.2.idle_count_ = (b.idle_count_ + 1) % U32 := AdaptiveBackoff.wait_idle b
  have hkth : (AdaptiveBackoff.init.waits N)[k - 1]? =
      some (if k ≤ 63 then Phase.spin else if k ≤ 255 then Phase.yield else Phase.sleep) := by
    rw [AdaptiveBackoff.waits_getElem? N AdaptiveBackoff.init (k - 1) (by omega)]
    have hidle : AdaptiveBackoff.init.idle_count_ + (k - 1) + 1 = k := by
      simp only [AdaptiveBackoff.init]; omega
    rw [AdaptiveBackoff.wait_phase_of_lt _ (by simp only [hidle, U32]; exact hk)]
    simp only [hidle]
    congr 1
    split_ifs <;> first | rfl | omega
  refine ⟨hone, ?_, ?_, ?_, hkth, ?_, ?_, ?_⟩
  · rw [hone]
    unfold AdaptiveBackoff.wait
    simp only [AdaptiveBackoff.kSpinThreshold, AdaptiveBackoff.kYieldThreshold]
    split_ifs <;> simp <;> omega
  · rw [hone]
    unfold AdaptiveBackoff.wait
    simp only [AdaptiveBackoff.kSpinThreshold, AdaptiveBackoff.kYieldThreshold]
    split_ifs <;> simp <;> omega
  · rw [hone]
    unfold AdaptiveBackoff.wait
    simp only [AdaptiveBackoff.kSpinThreshold, AdaptiveBackoff.kYieldThreshold]
    split_ifs <;> simp <;> omega
  · rw [hkth]
    split_ifs <;> simp <;> omega
  · rw [hkth]
    split_ifs <;> simp <;> omega
  · rw [hkth]
    split_ifs <;> simp <;> omega

/-- Witness for C12: the state with `idle_count_ = 63`, and the 64th of 300 consecutive waits. -/
theorem wait_phase_of_count_witness :
    (AdaptiveBackoff.init.waits 300)[64 - 1]? =
        some (if 64 ≤ 63 then Phase.spin else if 64 ≤ 255 then Phase.yield else Phase.sleep) ∧
      (({ idle_count_ := 63 } : AdaptiveBackoff).wait.1 = Phase.yield ↔
        64 ≤ ({ idle_count_ := 63 } : AdaptiveBackoff).wait.2.idle_count_ ∧
          ({ idle_count_ := 63 } : AdaptiveBackoff).wait.2.idle_count_ < 256) :=
  ⟨(wait_phase_of_count { idle_count_ := 63 } 300 64 (by decide) (by decide)
      (by decide)).2.2.2.2.1,
    (wait_phase_of_count { idle_count_ := 63 } 300 64 (by decide) (by decide)
      (by decide)).2.2.1⟩

/-! ## try_pop and size() -/

/-- In every well-formed state whose `tail` has not wrapped below `head`, `try_pop` returns true
exactly when `size()` is non-zero. -/
theorem try_pop_iff_size_of_head_le_tail (Capacity : Nat) (q : SpscQueue Capacity) (hq : q.WF)
    (hle : q.head ≤ q.tail) : q.try_pop.1.isSome = true ↔ q.size ≠ 0 := by
  obtain ⟨hh, ht, -⟩ := hq
  by_cases h : q.head < q.tail
  · rw [SpscQueue.try_pop_ok q h]
    simp only [Option.isSome_some, true_iff]
    simp only [SpscQueue.size, sub64, U64] at *
    omega
  · rw [SpscQueue.try_pop_empty q (Nat.not_lt.mp h)]
    simp only [Option.isSome_none, Bool.false_eq_true, false_iff, not_not]
    simp only [SpscQueue.size, sub64, U64] at *
    omega

/-- C13, evaluated at the failing input: the state `head = 2^64 - 1`, `tail = 0` of a queue of
capacity 1, which the call sequence `wrapOps` reaches from the freshly constructed queue. There
`size()` is 1, which lies between 0 and `Capacity`, yet `try_pop` returns false and leaves the
state unchanged, so a loop that polls `try_pop` while `size() > 0` makes no progress. -/
theorem try_pop_disagrees_with_size_after_wrap :
    ((SpscQueue.init 1).run wrapOps).2 = { head := 2 ^ 64 - 1, tail := 0, buf := [7] } ∧
    ({ head := 2 ^ 64 - 1, tail := 0, buf := [7] } : SpscQueue 1).WF ∧
    0 ≤ ({ head := 2 ^ 64 - 1, tail := 0, buf := [7] } : SpscQueue 1).size ∧
    ({ head := 2 ^ 64 - 1, tail := 0, buf := [7] } : SpscQueue 1).size ≤ 1 ∧
    ({ head := 2 ^ 64 - 1, tail := 0, buf := [7] } : SpscQueue 1).size = 1 ∧
    ({ head := 2 ^ 64 - 1, tail := 0, buf := [7] } : SpscQueue 1).try_pop =
      (none, { head := 2 ^ 64 - 1, tail := 0, buf := [7] }) ∧
    (({ head := 2 ^ 64 - 1, tail := 0, buf := [7] } : SpscQueue 1).try_push 9).1 = false :=
  ⟨spsc_wrapOps_state, by decide, by decide, by decide, by decide, by decide, by decide⟩

end Bench
